import Mathlib

/-!
Verification of the `group` concurrency kit (github.com/oatcatx/group).

This file gives a shallow embedding, in Lean 4, of the parts of the Go
source that the frozen claims are about:

* the structured error model (`groupError`, `wrapError`, `leafError`,
  `errors.Join`, `fmt.Errorf` with `%w`) from `errgroup.go`;
* the node record and graph builder invariants from `node.go`;
* the scheduler `Group.Go` / `Group.exec` (dispatch keyed on indegree,
  strong/weak notification, fast-fail, retry/pre/after wrappers, the
  rollback tracker, the group pre/after interceptors, the group timeout
  error path);
* `Group.Verify` (cycle detection by DFS with gray/black coloring);
* the flat executor `TryGo`;
* `SafeRun` / `RecoverCtxErr` (panic recovery);
* the copy-on-write `mapStore`.

Concurrency is embedded by a deterministic sequentialization: the
errgroup worker pool is modelled as a FIFO work list processed one node
at a time, which realizes one legal interleaving of the Go scheduler.
Real time is abstracted: "the group deadline fired" is a boolean input,
and the amount of work finished before the deadline is an explicit fuel
parameter.  Task bodies, interceptors and rollbacks are modelled by
their result values (functions supplied as part of the node record).
-/

namespace GroupKit

/-! ## The Go error model

`GoErr` covers the error shapes the library builds or observes:

* `base msg` — an `errors.New` / plain error with message `msg`;
* `grouped err upstreams` — the library's `groupError{err, upstreams}`;
* `joined errs` — `errors.Join(errs...)` (all members non-nil);
* `wrapf msg ws` — a `fmt.Errorf` result whose format wrapped, via `%w`,
  the errors `ws`, and whose rendered message is `msg`.
-/

inductive GoErr : Type where
  | base (msg : String)
  | grouped (err : GoErr) (upstreams : List GoErr)
  | joined (errs : List GoErr)
  | wrapf (msg : String) (ws : List GoErr)

/-- `(*groupError).Error`, `(joinError).Error` and the message of a
`fmt.Errorf` error, as one rendering function on `GoErr`. -/
def errString : GoErr → String
  | .base msg => msg
  | .grouped err upstreams =>
    match upstreams with
    | [] => errString err
    | [up] => errString err ++ " <- " ++ errString up
    | ups =>
      errString err ++ " <- [" ++
        String.intercalate " | " (ups.attach.map (fun u => errString u.1)) ++ "]"
  | .joined errs => String.intercalate "\n" (errs.attach.map (fun e => errString e.1))
  | .wrapf msg _ => msg
decreasing_by
  all_goals simp_wf
  all_goals first
    | omega
    | (have h := List.sizeOf_lt_of_mem u.2; omega)
    | (have h := List.sizeOf_lt_of_mem e.2; omega)

/-- The `Unwrap` method of each error shape: `(*groupError).Unwrap`
returns `err :: upstreams`, `errors.Join`'s result unwraps to its
member slice, a multi-`%w` `fmt.Errorf` error unwraps to the wrapped
errors, and a plain error has no `Unwrap`. -/
def unwrapList : GoErr → List GoErr
  | .base _ => []
  | .grouped err upstreams => err :: upstreams
  | .joined errs => errs
  | .wrapf _ ws => ws

/-- `errors.Is e target`: either `e` is the target itself, or some
member of its `Unwrap` chain satisfies `errors.Is` recursively. -/
inductive ErrIs : GoErr → GoErr → Prop where
  | refl (e : GoErr) : ErrIs e e
  | chain {e c target : GoErr} :
      c ∈ unwrapList e → ErrIs c target → ErrIs e target

/-! ## The node record

`node` from `node.go` / `rollback.go`, with behaviour fields modelling
the task body, interceptors and rollback by their results:

* `body sh i` is the error returned by the `i`-th attempt of the task
  body (`n.f`, after the store wrapper) when run with shared value `sh`;
* `pre = none` means no node pre-interceptor is configured;
  `pre = some r` means it is configured and returns `r`;
* `after = none` means no node after-interceptor; `after = some f`
  means it is configured and maps the incoming error to `f err`;
* `hasRollback`/`rollbackRes` model `n.rollback` being set and the
  error it returns when invoked.

Shared values (`any` in Go) are modelled by `GoAny`.
-/

inductive GoAny : Type where
  | nilV
  | val (s : String)
  | list (xs : List GoAny)

structure GoNode : Type where
  idx : Nat
  key : Option String
  deps : List Nat
  /-- the `to` field of the source: ALL successor indices (strong and weak). -/
  toNodes : List Nat
  /-- the `weakTo` field of the source: weak successor indices. -/
  weakTo : List Nat
  ff : Bool
  retry : Nat
  body : GoAny → Nat → Option GoErr
  pre : Option (Option GoErr)
  after : Option (Option GoErr → Option GoErr)
  hasRollback : Bool
  rollbackRes : Option GoErr

/-! ## `wrapError` and `leafError` (translated from the error file) -/

/-- `wrapError(n, err, groupErrs)`: if the node has no dependencies the
error is returned unchanged; otherwise the non-nil recorded errors of
its dependencies are collected and, if any, folded into a
`groupError`. -/
def wrapError (n : GoNode) (err : GoErr) (groupErrs : List (Option GoErr)) : GoErr :=
  if n.deps = [] then err
  else
    let upstreamErrs := n.deps.filterMap (fun depIdx => groupErrs.getD depIdx none)
    if upstreamErrs.isEmpty then err
    else .grouped err upstreamErrs

/-- `leafError(nodes, groupErrs)`: collect the recorded errors of nodes
none of whose successors (the `to` list, which contains both strong and
weak successors) has a recorded error; return `nil`, the single leaf
error, or `errors.Join` of all of them. -/
def leafError (nodes : List GoNode) (groupErrs : List (Option GoErr)) : Option GoErr :=
  let leafErrs := nodes.foldl
    (fun acc n =>
      match groupErrs.getD n.idx none with
      | none => acc
      | some e =>
        if n.toNodes.all (fun toIdx => (groupErrs.getD toIdx none).isNone)
        then acc ++ [e] else acc)
    []
  match leafErrs with
  | [] => none
  | [e] => some e
  | es => some (.joined es)

/-- The leaf error set in the words of the (amended) spec: the recorded
errors of failing nodes none of whose successors — strong or weak,
i.e. no entry of the `to` list — has a recorded error. -/
def specLeafErrs (nodes : List GoNode) (groupErrs : List (Option GoErr)) : List GoErr :=
  nodes.filterMap (fun n =>
    match groupErrs.getD n.idx none with
    | none => none
    | some e =>
      if n.toNodes.all (fun toIdx => (groupErrs.getD toIdx none).isNone)
      then some e else none)

/-! ## The scheduler model: `Group.Go` / `Group.exec`

The errgroup worker pool is sequentialized: a FIFO work list holds the
dispatched-but-not-yet-run nodes, and `execLoop` runs one worker at a
time.  A worker that starts after a fast-fail error has cancelled the
group context returns `ctx.Err()` at its entry check and does nothing
else.  The `fuel` bound on the loop models the group deadline: when the
deadline fires, the remaining queue never runs.
-/

/-- One invocation of a task body: node index, attempt number and the
shared value it was handed. -/
structure BodyCall : Type where
  node : Nat
  attempt : Nat
  shared : GoAny

/-- Observable per-node events: node pre-interceptor ran, task body
attempt `i` ran, node after-interceptor ran. -/
inductive NodeEv : Type where
  | preEv
  | bodyEv (attempt : Nat)
  | afterEv
deriving DecidableEq

def isBodyEv : NodeEv → Bool
  | .bodyEv _ => true
  | _ => false

def isPreEv : NodeEv → Bool
  | .preEv => true
  | _ => false

/-- The retry wrapper of `Group.exec`: run the body starting at attempt
`i`, with `fuel` further attempts allowed after the current one, and
stop at the first nil error.  Returns the final error and the attempt
numbers executed, in order. -/
def runAttempts (body : Nat → Option GoErr) : Nat → Nat → Option GoErr × List Nat
  | fuel, i =>
    match body i with
    | none => (none, [i])
    | some e =>
      match fuel with
      | 0 => (some e, [i])
      | fuel + 1 =>
        let r := runAttempts body fuel (i + 1)
        (r.1, i :: r.2)

/-- The composed effective body of a worker in `Group.exec`: the task
body wrapped by the retry wrapper (only when `retry > 0`, as in the
source) and then by the pre-interceptor wrapper.  Returns the error
handed to the deferred epilogue together with the event trace. -/
def nodeBodyPhase (n : GoNode) (sh : GoAny) : Option GoErr × List NodeEv :=
  let retried : Option GoErr × List Nat :=
    if n.retry > 0 then runAttempts (n.body sh) n.retry 0
    else ((n.body sh 0), [0])
  match n.pre with
  | none => (retried.1, retried.2.map .bodyEv)
  | some preRes =>
    match preRes with
    | some e => (some e, [.preEv])
    | none => (retried.1, .preEv :: retried.2.map .bodyEv)

/-- The node after-interceptor step of the worker's deferred epilogue:
when configured, its return value replaces the error. -/
def nodeAfterPhase (n : GoNode) (err : Option GoErr) : Option GoErr × List NodeEv :=
  match n.after with
  | none => (err, [])
  | some f => (f err, [.afterEv])

/-- Mutable state of one `Group.Go` run. -/
structure ExecSt : Type where
  groupErrs : List (Option GoErr)
  indegree : List Nat
  /-- the rollback tracker's order log (completion order of tracked nodes). -/
  tracked : List Nat
  /-- the error a fast-fail worker returned, which cancelled the group ctx. -/
  canceled : Option GoErr
  /-- every body invocation performed so far. -/
  calls : List BodyCall

/-- Successor notification: decrement the indegree of every index in
`idxs`; indices that reach zero are dispatched (appended to the ready
list).  The source decrements an unsigned counter atomically; under the
builder invariant each edge is decremented exactly once, so the counter
never wraps and `Nat` subtraction is exact. -/
def notifyAll (idxs : List Nat) (indegree : List Nat) : List Nat × List Nat :=
  idxs.foldl
    (fun acc toIdx =>
      let d := acc.1.getD toIdx 0 - 1
      (acc.1.set toIdx d, if d = 0 then acc.2 ++ [toIdx] else acc.2))
    (indegree, [])

/-- One worker, from dispatch to the end of its deferred epilogue:
entry cancellation check, body phase, rollback tracking, node
after-interceptor, error wrapping and recording, fast-fail, and
successor notification (all successors on success, weak successors on
failure; nothing on fast-fail or for key-less nodes).  Returns the new
state and the newly ready successor indices. -/
def processNode (nodes : List GoNode) (trackerExists : Bool) (sh : GoAny)
    (st : ExecSt) (i : Nat) : ExecSt × List Nat :=
  match nodes.get? i with
  | none => (st, [])
  | some n =>
    if st.canceled.isSome then (st, [])
    else
      let run := nodeBodyPhase n sh
      let tracked' := if trackerExists && n.hasRollback then st.tracked ++ [n.idx] else st.tracked
      let fin := nodeAfterPhase n run.1
      let calls' := st.calls ++ run.2.filterMap (fun ev =>
        match ev with
        | .bodyEv a => some ⟨n.idx, a, sh⟩
        | _ => none)
      match fin.1 with
      | none =>
        if n.key.isSome then
          let nr := notifyAll n.toNodes st.indegree
          ({ st with tracked := tracked', calls := calls', indegree := nr.1 }, nr.2)
        else ({ st with tracked := tracked', calls := calls' }, [])
      | some e =>
        let w := wrapError n e st.groupErrs
        let ge' := st.groupErrs.set n.idx (some w)
        if n.ff then
          ({ st with groupErrs := ge'
                     tracked := tracked'
                     calls := calls'
                     canceled := some w }, [])
        else if n.key.isSome then
          let nr := notifyAll n.weakTo st.indegree
          ({ st with groupErrs := ge'
                     tracked := tracked'
                     calls := calls'
                     indegree := nr.1 }, nr.2)
        else ({ st with groupErrs := ge', tracked := tracked', calls := calls' }, [])

/-- The sequentialized worker pool: process the FIFO work list,
spending one unit of fuel per worker.  Fuel exhaustion models the group
deadline firing with work still pending. -/
def execLoop (nodes : List GoNode) (trackerExists : Bool) (sh : GoAny) :
    Nat → List Nat → ExecSt → ExecSt
  | 0, _, st => st
  | _ + 1, [], st => st
  | fuel + 1, i :: queue, st =>
    let pr := processNode nodes trackerExists sh st i
    execLoop nodes trackerExists sh fuel (queue ++ pr.2) pr.1

def initExecSt (nodes : List GoNode) : ExecSt :=
  { groupErrs := List.replicate nodes.length none
    indegree := nodes.map (fun n => n.deps.length)
    tracked := []
    canceled := none
    calls := [] }

/-- Root dispatch: every node with no dependencies, in insertion order. -/
def rootQueue (nodes : List GoNode) : List Nat :=
  (nodes.filter (fun n => n.deps.isEmpty)).map (·.idx)

def groupExecSt (nodes : List GoNode) (trackerExists : Bool) (sh : GoAny)
    (fuel : Nat) : ExecSt :=
  execLoop nodes trackerExists sh fuel (rootQueue nodes) (initExecSt nodes)

/-- `rollbackTracker.rollback`: invoke tracked rollbacks in reverse
completion order; failures are wrapped as
`fmt.Errorf("rollback %v failed: %w", n.key, err)` and joined. -/
def rollbackRun (nodes : List GoNode) (tracked : List Nat) : Option GoErr × List Nat :=
  let ord := tracked.reverse
  let errs := ord.filterMap (fun i =>
    (nodes.get? i).bind (fun n =>
      n.rollbackRes.map (fun e =>
        GoErr.wrapf ("rollback " ++ n.key.getD "<nil>" ++ " failed: " ++ errString e) [e])))
  (if errs.isEmpty then none else some (.joined errs), ord)

/-- Group-level options relevant to the claims.  `gname` is the
`Prefix` option (the group name used in log and timeout messages);
`pre`/`after` model the group interceptors by their results. -/
structure GroupCfg : Type where
  gname : String
  pre : Option (Option GoErr)
  after : Option (Option GoErr → Option GoErr)
  hasTimeout : Bool

/-- `NewGroup`'s defaulting of the `Prefix` option. -/
def newGroupName (s : String) : String := if s = "" then "anonymous" else s

/-- Observable outcome of one `Group.Go` call. -/
structure GoResult : Type where
  err : Option GoErr
  calls : List BodyCall
  /-- node indices whose rollback was invoked, in invocation order. -/
  rolledBack : List Nat
  /-- whether the group after-interceptor was invoked. -/
  afterRan : Bool

/-- The shared-value packing rule of `Group.Go`: empty variadic gives
nil, a single element is passed bare, several are passed as the list. -/
def packShared (shared : List GoAny) : GoAny :=
  match shared with
  | [] => .nilV
  | [x] => x
  | xs => .list xs

/-- `Group.Go`, sequentialized.  `timeoutFired` says whether the group
deadline elapsed with workers still pending (only meaningful when a
timeout is configured), and `fuel` bounds how many workers ran. -/
def GroupGo (cfg : GroupCfg) (nodes : List GoNode) (shared : List GoAny)
    (timeoutFired : Bool) (fuel : Nat) : GoResult :=
  if nodes.isEmpty then ⟨none, [], [], false⟩
  else
    match cfg.pre with
    | some (some e) => ⟨some e, [], [], false⟩
    | _ =>
      let xshared := packShared shared
      let trackerExists := nodes.any (·.hasRollback)
      let st := groupExecSt nodes trackerExists xshared fuel
      let errWait : Option GoErr :=
        if cfg.hasTimeout && timeoutFired then
          some (.base ("group " ++ cfg.gname ++ " timeout"))
        else st.canceled
      let err1 := match errWait with
        | none => leafError nodes st.groupErrs
        | some e => some e
      let rb :=
        if err1.isSome && trackerExists then rollbackRun nodes st.tracked
        else (none, [])
      let err2 := match err1, rb.1 with
        | some e, some r => some (.joined [e, r])
        | _, _ => err1
      match cfg.after with
      | some f => ⟨f err2, st.calls, rb.2, true⟩
      | none => ⟨err2, st.calls, rb.2, false⟩

/-! ## The flat executor `TryGo` -/

/-- Options of the flat executor relevant to `TryGo`'s admission check. -/
structure FlatOpts : Type where
  limit : Nat
  pre : Option (Option GoErr)
  after : Option (Option GoErr → Option GoErr)

/-- `errgroup.Wait` sequentialized: the first non-nil task error. -/
def firstErr (fs : List (Option GoErr)) : Option GoErr := fs.findSome? id

/-- `TryGo(ctx, opts, fs...)`, sequentialized.  Tasks are modelled by
their results; the third component lists the tasks that ran. -/
def TryGo (opts : Option FlatOpts) (fs : List (Option GoErr)) :
    Bool × Option GoErr × List Nat :=
  if fs.isEmpty then (true, none, [])
  else
    match opts with
    | none => (true, firstErr fs, List.range fs.length)
    | some o =>
      if o.limit < fs.length then
        (false, some (.base "limit cannot be less than the number of funcs"), [])
      else
        match o.pre with
        | some (some e) => (false, some e, [])
        | _ =>
          let werr := firstErr fs
          match o.after with
          | some f => (true, f werr, List.range fs.length)
          | none => (true, werr, List.range fs.length)

/-! ## `SafeRun` / `RecoverCtxErr` -/

/-- The sentinel `ErrPanic = errors.New("panic recovered")`. -/
def ErrPanic : GoErr := .base "panic recovered"

/-- A Go panic value: either an error, or any other value rendered by
`fmt.Errorf("%v", r)`. -/
inductive PanicVal : Type where
  | errVal (e : GoErr)
  | otherVal (s : String)

def panicErrOf : PanicVal → GoErr
  | .errVal e => e
  | .otherVal s => .base s

/-- The error built by `RecoverCtxErr`:
`fmt.Errorf("%w at %s: %w", ErrPanic, loc, panicErr)` when a source
location was captured, `fmt.Errorf("%w: %w", ErrPanic, panicErr)`
otherwise. -/
def recoverErr (v : PanicVal) (loc : Option String) : GoErr :=
  match loc with
  | some l =>
    .wrapf (errString ErrPanic ++ " at " ++ l ++ ": " ++ errString (panicErrOf v))
      [ErrPanic, panicErrOf v]
  | none =>
    .wrapf (errString ErrPanic ++ ": " ++ errString (panicErrOf v))
      [ErrPanic, panicErrOf v]

/-- How one task invocation ended: a normal return (with a possibly nil
error), or a panic carrying a value, with an optionally captured source
location. -/
inductive TaskOutcome : Type where
  | normal (e : Option GoErr)
  | panicked (v : PanicVal) (loc : Option String)

/-- `SafeRun`: a normal return passes through unmodified; a panic is
recovered and converted by `RecoverCtxErr`. -/
def SafeRun : TaskOutcome → Option GoErr
  | .normal e => e
  | .panicked v loc => some (recoverErr v loc)

/-! ## The copy-on-write `mapStore`

Sequentially, the CAS loop of `Store` always succeeds on its first
iteration and replaces the map with a copy holding the new binding; a
Go map is its lookup function, so the state is modelled as
`α → Option β` and `Store` as a pointwise update. -/

def mapStoreLoad {α β : Type} (m : α → Option β) (k : α) : Option β × Bool :=
  (m k, (m k).isSome)

def mapStoreStore {α β : Type} [DecidableEq α] (m : α → Option β) (k : α) (v : β) :
    α → Option β :=
  fun q => if q = k then some v else m q

def emptyMapStore {α β : Type} : α → Option β := fun _ => none

/-- The map reached from `NewMapStore()` by a sequence of `Store` calls. -/
def applyStores {α β : Type} [DecidableEq α] (ops : List (α × β)) : α → Option β :=
  ops.foldl (fun m p => mapStoreStore m p.1 p.2) emptyMapStore

/-! ## `Group.Verify`: cycle detection

The key-only sub-graph is an association list from key to the keys of
its dependencies; `adjOf` is Go's map lookup.  The DFS mirrors the
source: `stk` is the gray set (the current path), `visited` the
discovered set; hitting a gray key reports a cycle, and the path is
accumulated on the way out of the recursion.  The source builds the
message string directly; here the path is accumulated as a key list and
rendered afterwards, which composes to the same string.  Go iterates
its maps in unspecified order; the model fixes insertion order, one
legal order.  The recursion is bounded by explicit fuel; `g.length`
fuel is enough because every level of descent discovers a new key. -/

def keysOf (g : List (String × List String)) : List String := g.map (·.1)

def adjOf (g : List (String × List String)) (k : String) : List String :=
  match g.find? (fun p => p.1 == k) with
  | some p => p.2
  | none => []

/-- The key-only sub-graph built by `Verify`: key-less nodes are
skipped, and dependencies on key-less nodes are dropped. -/
def keyAdjList (nodes : List GoNode) : List (String × List String) :=
  nodes.filterMap (fun n =>
    n.key.map (fun k =>
      (k, n.deps.filterMap (fun depIdx => (nodes.get? depIdx).bind (·.key)))))

mutual

def dfsVisit (g : List (String × List String)) :
    Nat → List String → List String → String → Option (List String) × List String
  | fuel, stk, visited, k =>
    if k ∈ stk then (some [k], visited)
    else if k ∈ visited then (none, visited)
    else
      match fuel with
      | 0 => (none, visited)
      | fuel + 1 => dfsFold g fuel (k :: stk) (k :: visited) k (adjOf g k)
termination_by fuel _ _ _ => (fuel, 0, 0)

def dfsFold (g : List (String × List String)) :
    Nat → List String → List String → String → List String →
    Option (List String) × List String
  | _, _, visited, _, [] => (none, visited)
  | fuel, stk, visited, k, c :: cs =>
    match dfsVisit g fuel stk visited c with
    | (some q, v') => (some (k :: q), v')
    | (none, v') => dfsFold g fuel stk v' k cs
termination_by fuel _ _ _ cs => (fuel, 1, cs.length)

end

/-- The `for key := range graph` loop of `Verify`, in insertion order. -/
def verifyLoop (g : List (String × List String)) :
    List String → List String → Option (List String) × List String
  | [], visited => (none, visited)
  | k :: ks, visited =>
    if k ∈ visited then verifyLoop g ks visited
    else
      match dfsVisit g g.length [] visited k with
      | (some p, v') => (some p, v')
      | (none, v') => verifyLoop g ks v'

/-- `fmt.Sprintf("%q -> %q -> ...")` composition: the cycle path as the
source renders it (keys are plain strings, so `%q` just quotes). -/
def renderPath (p : List String) : String :=
  String.intercalate " -> " (p.map (fun k => "\"" ++ k ++ "\""))

def goVerifyCycle (nodes : List GoNode) : Option (List String) :=
  if nodes.isEmpty then none
  else (verifyLoop (keyAdjList nodes) (keysOf (keyAdjList nodes)) []).1

/-- `Group.Verify` without the panic: the returned message. -/
def goVerifyMsg (nodes : List GoNode) : String :=
  match goVerifyCycle nodes with
  | none => ""
  | some p => "dependency cycle detected: " ++ renderPath p

/-- `Group.Verify(panicking)`: `.error` models the panic. -/
def GroupVerify (nodes : List GoNode) (panicking : Bool) : Except String String :=
  let msg := goVerifyMsg nodes
  if msg = "" then .ok ""
  else if panicking then .error msg else .ok msg

/-- The edge relation of the key-only sub-graph: `EdgeG g a b` iff `b`
is listed among the dependencies of `a`. -/
def EdgeG (g : List (String × List String)) (a b : String) : Prop := b ∈ adjOf g a

/-- The sub-graph has a dependency cycle. -/
def CyclicG (g : List (String × List String)) : Prop :=
  ∃ k, Relation.TransGen (EdgeG g) k k

/-! ## Definitions transcribing the claims under test (for the
corrected claims, the claim's own wording is formalized so that the
counterexample can refute it as stated). -/

/-- Strong successors in the claim's sense: entries of `to` that are
not weak (`Dep` adds to `to` only; `WeakDep` adds to both). -/
def strongSucc (n : GoNode) : List Nat :=
  n.toNodes.filter (fun t => !(n.weakTo.contains t))

/-- `strongReach nodes fuel i j`: node `j` is reachable from node `i`
by one or more strong edges (fuel-bounded; `nodes.length` fuel
suffices on builder-produced graphs). -/
def strongReach (nodes : List GoNode) : Nat → Nat → Nat → Bool
  | 0, _, _ => false
  | fuel + 1, i, j =>
    match nodes.get? i with
    | none => false
    | some n => (strongSucc n).any (fun t => t == j || strongReach nodes fuel t j)

/-- The leaf error set exactly as claim C1 states it: recorded errors
of failing nodes that have no failing strong descendant. -/
def claimLeafErrs (nodes : List GoNode) (groupErrs : List (Option GoErr)) : List GoErr :=
  nodes.filterMap (fun n =>
    match groupErrs.getD n.idx none with
    | none => none
    | some e =>
      if nodes.any (fun m => (groupErrs.getD m.idx none).isSome
          && strongReach nodes nodes.length n.idx m.idx)
      then none else some e)

/-- The immediate elements of a final error: the members of an
`errors.Join`, or the error itself. -/
def immediateElems (e : GoErr) : List GoErr :=
  match e with
  | .joined es => es
  | e => [e]

/-- A plain node with a constant body and no options, for concrete
examples. -/
def mkNode (idx : Nat) (key : Option String) (deps toN weakTo : List Nat)
    (res : Option GoErr) : GoNode :=
  { idx := idx, key := key, deps := deps, toNodes := toN, weakTo := weakTo,
    ff := false, retry := 0, body := fun _ _ => res, pre := none, after := none,
    hasRollback := false, rollbackRes := none }

/-- A plain group configuration: default name, no interceptors, no
timeout. -/
def plainCfg : GroupCfg :=
  { gname := "anonymous", pre := none, after := none, hasTimeout := false }

/-- C1's counterexample graph: `F` fails; `X` weakly depends on `F` and
fails too (`X.WeakDep(F)` puts `X` in both `F.to` and `F.weakTo`). -/
def exC1Nodes : List GoNode :=
  [mkNode 0 (some "F") [] [1] [1] (some (.base "F_ERR")),
   mkNode 1 (some "X") [0] [] [] (some (.base "X_ERR"))]

/-- The recorded errors after running C1's counterexample graph. -/
def exC1Errs : List (Option GoErr) :=
  (groupExecSt exC1Nodes false GoAny.nilV 4).groupErrs

/-- C3's counterexample configuration: the group pre-interceptor fails
and an after-interceptor is configured that would replace any error by
`AFTER`. -/
def exC3Cfg : GroupCfg :=
  { gname := "anonymous", pre := some (some (.base "PRE")),
    after := some (fun _ => some (.base "AFTER")), hasTimeout := false }

def exC3Nodes : List GoNode := [mkNode 0 (some "a") [] [] [] none]

/-- C4's counterexample: a group with a timeout; node 0 declares a
rollback and completes before the deadline, node 1 is still pending
when the deadline fires. -/
def exC4Cfg : GroupCfg :=
  { gname := "anonymous", pre := none, after := none, hasTimeout := true }

def exC4Nodes : List GoNode :=
  [{ mkNode 0 (some "a") [] [] [] none with hasRollback := true },
   mkNode 1 (some "b") [] [] [] none]

/-- C5's witness node: `WithRetry(2)` with a body failing on attempt 0
and succeeding on attempt 1; pre and after interceptors configured. -/
def exC5Node : GoNode :=
  { mkNode 0 (some "r") [] [] [] none with
    retry := 2
    body := fun _ i => if i = 0 then some (.base "E0") else none
    pre := some none
    after := some (fun e => e) }

/-- C6's witness graph: a two-key cycle, `a -> b -> a`. -/
def exC6Nodes : List GoNode :=
  [mkNode 0 (some "a") [1] [] [] none,
   mkNode 1 (some "b") [0] [] [] none]

/-- C8's witness graph: a single keyed task. -/
def exC8Nodes : List GoNode := [mkNode 0 (some "a") [] [] [] none]

/-- Number of keys of `g` not yet discovered by the DFS. -/
def unvis (g : List (String × List String)) (visited : List String) : Nat :=
  (keysOf g).countP (fun x => x ∉ visited)

/-- The key sub-graph is closed: every dependency key is itself a key.
`Verify`'s graph construction guarantees this. -/
def AdjClosed (g : List (String × List String)) : Prop :=
  ∀ k : String, ∀ c ∈ adjOf g k, c ∈ keysOf g

/-- DFS invariant: every black key (discovered and off the gray stack)
has all its dependencies discovered and off the stack. -/
def BlackClosed (g : List (String × List String)) (stk visited : List String) : Prop :=
  ∀ b ∈ visited, b ∉ stk → ∀ c ∈ adjOf g b, c ∈ visited ∧ c ∉ stk

/-- DFS invariant: no dependency cycle passes through a black key. -/
def BlackAcyclic (g : List (String × List String)) (stk visited : List String) : Prop :=
  ∀ b ∈ visited, b ∉ stk → ¬ Relation.TransGen (EdgeG g) b b

/-! # Theorems -/

theorem ErrIs.trans {a b c : GoErr} (hab : ErrIs a b) (hbc : ErrIs b c) :
    ErrIs a c := by
  induction hab with
  | refl => exact hbc
  | chain hmem _ ih => exact .chain hmem (ih hbc)

theorem leafError_foldl_eq (nodes : List GoNode)
    (groupErrs : List (Option GoErr)) (acc : List GoErr) :
    nodes.foldl
      (fun acc n =>
        match groupErrs.getD n.idx none with
        | none => acc
        | some e =>
          if n.toNodes.all (fun toIdx => (groupErrs.getD toIdx none).isNone)
          then acc ++ [e] else acc)
      acc =
    acc ++ nodes.filterMap (fun n =>
      match groupErrs.getD n.idx none with
      | none => none
      | some e =>
        if n.toNodes.all (fun toIdx => (groupErrs.getD toIdx none).isNone)
        then some e else none) := by
  induction nodes generalizing acc with
  | nil => simp
  | cons n rest ih =>
    simp only [List.foldl_cons, List.filterMap_cons]
    cases hg : groupErrs.getD n.idx none with
    | none => simpa [hg] using ih acc
    | some e =>
      by_cases hl : n.toNodes.all (fun toIdx => (groupErrs.getD toIdx none).isNone)
      · simp only [hg, hl, if_pos]
        rw [ih (acc ++ [e])]
        simp
      · simp only [hg, hl, if_neg]
        simpa using ih acc

theorem leafError_foldl_filterMap (nodes : List GoNode)
    (groupErrs : List (Option GoErr)) (acc : List GoErr) :
    nodes.foldl
      (fun acc n =>
        match groupErrs.getD n.idx none with
        | none => acc
        | some e =>
          if n.toNodes.all (fun toIdx => (groupErrs.getD toIdx none).isNone)
          then acc ++ [e] else acc)
      acc = acc ++ specLeafErrs nodes groupErrs :=
  leafError_foldl_eq nodes groupErrs acc

/-! ## Rendering lemmas for `groupError.Error` -/

theorem errString_grouped_single (e u : GoErr) :
    errString (.grouped e [u]) = errString e ++ " <- " ++ errString u := by
  simp [errString]

theorem errString_grouped_many (e u1 u2 : GoErr) (rest : List GoErr) :
    errString (.grouped e (u1 :: u2 :: rest)) =
      errString e ++ " <- [" ++
        String.intercalate " | " ((u1 :: u2 :: rest).map errString) ++ "]" := by
  rw [errString]
  · rw [List.attach_map_val]
  · simp
  · simp

/-! ## Claim C2: the wrapped error of a failing node -/

theorem wrapError_of_no_failed_dep (n : GoNode) (e : GoErr)
    (groupErrs : List (Option GoErr))
    (h : n.deps.filterMap (fun d => groupErrs.getD d none) = []) :
    wrapError n e groupErrs = e := by
  unfold wrapError
  by_cases hd : n.deps = []
  · rw [if_pos hd]
  · rw [if_neg hd]
    simp only [List.isEmpty_iff, h, if_pos]

theorem wrapError_of_failed_deps (n : GoNode) (e : GoErr)
    (groupErrs : List (Option GoErr))
    (h : n.deps.filterMap (fun d => groupErrs.getD d none) ≠ []) :
    wrapError n e groupErrs =
      .grouped e (n.deps.filterMap (fun d => groupErrs.getD d none)) := by
  unfold wrapError
  have hd : n.deps ≠ [] := by
    intro hd
    apply h
    simp [hd]
  rw [if_neg hd]
  simp only [List.isEmpty_iff, h, if_neg, if_false]

/-- C2: for a node `n` whose body returned error `e`, the recorded
wrapped error `wrapError n e groupErrs` equals `e` unchanged when no
dependency of `n` recorded an error; otherwise it prints as
`"<e> <- <dep_err>"` when exactly one dependency failed and as
`"<e> <- [<e1> | <e2> | …]"` when several failed, and its unwrap chain
contains `e`, each failed dependency's recorded error, and — since
`ErrIs` is transitive along chains — every failed ancestor's error, so
`errors.Is` succeeds against any failed ancestor. -/
theorem wrapError_spec (n : GoNode) (e : GoErr) (groupErrs : List (Option GoErr)) :
    (n.deps.filterMap (fun d => groupErrs.getD d none) = [] →
      wrapError n e groupErrs = e)
    ∧ (∀ u, n.deps.filterMap (fun d => groupErrs.getD d none) = [u] →
      errString (wrapError n e groupErrs) = errString e ++ " <- " ++ errString u)
    ∧ (∀ u1 u2 rest, n.deps.filterMap (fun d => groupErrs.getD d none) = u1 :: u2 :: rest →
      errString (wrapError n e groupErrs) =
        errString e ++ " <- [" ++
          String.intercalate " | " ((u1 :: u2 :: rest).map errString) ++ "]")
    ∧ ErrIs (wrapError n e groupErrs) e
    ∧ (∀ d u, d ∈ n.deps → groupErrs.getD d none = some u →
      ∀ a, ErrIs u a → ErrIs (wrapError n e groupErrs) a) := by
  refine ⟨wrapError_of_no_failed_dep n e groupErrs, ?_, ?_, ?_, ?_⟩
  · intro u hu
    rw [wrapError_of_failed_deps n e groupErrs (by rw [hu]; exact List.cons_ne_nil _ _), hu]
    exact errString_grouped_single e u
  · intro u1 u2 rest hu
    rw [wrapError_of_failed_deps n e groupErrs (by rw [hu]; exact List.cons_ne_nil _ _), hu]
    exact errString_grouped_many e u1 u2 rest
  · by_cases h : n.deps.filterMap (fun d => groupErrs.getD d none) = []
    · rw [wrapError_of_no_failed_dep n e groupErrs h]
      exact .refl e
    · rw [wrapError_of_failed_deps n e groupErrs h]
      exact .chain (List.mem_cons_self _ _) (.refl e)
  · intro d u hd hu a hua
    have hmem : u ∈ n.deps.filterMap (fun d => groupErrs.getD d none) :=
      List.mem_filterMap.mpr ⟨d, hd, hu⟩
    rw [wrapError_of_failed_deps n e groupErrs (List.ne_nil_of_mem hmem)]
    exact .chain (List.mem_cons_of_mem e hmem) hua

/-- Witness for C2 at a concrete node: one failed dependency with
recorded error `F`, task error `X`; the wrapped error prints as
`"X <- F"` and `errors.Is` finds `F` in it. -/
theorem wrapError_spec_witness :
    errString (wrapError (mkNode 1 (some "X") [0] [] [] none) (.base "X")
        [some (.base "F"), none]) = "X <- F"
    ∧ ErrIs (wrapError (mkNode 1 (some "X") [0] [] [] none) (.base "X")
        [some (.base "F"), none]) (.base "F") := by
  constructor
  · have h := (wrapError_spec (mkNode 1 (some "X") [0] [] [] none) (.base "X")
      [some (.base "F"), none]).2.1 (.base "F") rfl
    rw [h]
    simp [errString]
  · exact (wrapError_spec (mkNode 1 (some "X") [0] [] [] none) (.base "X")
      [some (.base "F"), none]).2.2.2.2 0 (.base "F") (by simp [mkNode]) rfl (.base "F")
      (.refl _)

/-! ## Claim C1: the final leaf-error aggregation -/

theorem leafError_eq (nodes : List GoNode) (groupErrs : List (Option GoErr)) :
    leafError nodes groupErrs =
      match specLeafErrs nodes groupErrs with
      | [] => none
      | [e] => some e
      | es => some (.joined es) := by
  unfold leafError
  rw [leafError_foldl_filterMap, List.nil_append]

/-- C1 (amended): the leaf error set consists of the recorded errors of
failing nodes none of whose successors — strong **or weak**, i.e. no
entry of the node's `to` list — recorded an error (the claim's "no
failing strong descendant" does not match the code: a failing weak
successor also disqualifies a node).  A singleton leaf set is returned
as-is; several leaves are joined into an `errors.Join` whose immediate
elements are exactly the leaf set and whose chain preserves the
identity of each member.  When no fast-fail error was returned and no
group timeout fired (and with no rollback or after-interceptor
configured), `Group.Go` returns exactly this aggregation of the
recorded errors. -/
theorem leafError_spec (nodes : List GoNode) (groupErrs : List (Option GoErr)) :
    (leafError nodes groupErrs = none ↔ specLeafErrs nodes groupErrs = [])
    ∧ (∀ e, specLeafErrs nodes groupErrs = [e] → leafError nodes groupErrs = some e)
    ∧ (∀ e1 e2 rest, specLeafErrs nodes groupErrs = e1 :: e2 :: rest →
        leafError nodes groupErrs = some (.joined (specLeafErrs nodes groupErrs))
        ∧ immediateElems (.joined (specLeafErrs nodes groupErrs)) =
            specLeafErrs nodes groupErrs
        ∧ ∀ u ∈ specLeafErrs nodes groupErrs,
            ErrIs (.joined (specLeafErrs nodes groupErrs)) u)
    ∧ (∀ cfg shared fuel, cfg.pre = none → cfg.after = none →
        cfg.hasTimeout = false → nodes ≠ [] →
        (nodes.any fun n => n.hasRollback) = false →
        (groupExecSt nodes false (packShared shared) fuel).canceled = none →
        (GroupGo cfg nodes shared false fuel).err =
          leafError nodes (groupExecSt nodes false (packShared shared) fuel).groupErrs) := by
  have hEq := leafError_eq nodes groupErrs
  refine ⟨?_, ?_, ?_, ?_⟩
  · rw [hEq]
    rcases specLeafErrs nodes groupErrs with _ | ⟨a, _ | ⟨b, t⟩⟩ <;> simp
  · intro e hL
    rw [hEq, hL]
  · intro e1 e2 rest hL
    rw [hEq, hL]
    refine ⟨rfl, rfl, ?_⟩
    intro u hu
    exact .chain (by simpa [unwrapList] using hu) (.refl u)
  · intro cfg shared fuel hpre hafter hto hn hrb hcanc
    have hEmpty : nodes.isEmpty = false := by
      simpa [List.isEmpty_iff] using hn
    simp only [GroupGo, hEmpty, Bool.false_eq_true, if_false, hpre, hafter, hto, hrb,
      Bool.false_and, Bool.and_false, if_false, hcanc]
    cases leafError nodes (groupExecSt nodes false (packShared shared) fuel).groupErrs <;>
      rfl

/-- Counterexample to C1 as stated: in the graph where `F` fails and
`X` (weakly depending on `F`) fails too, the failing node `F` has no
failing *strong* descendant — `X` is a weak successor — so the claim's
leaf set is `[F_ERR, X_ERR <- F_ERR]`; but `Group.Go` returns only
`X_ERR <- F_ERR`, whose immediate elements do not include `F_ERR`. -/
theorem leafError_claim_counterexample :
    (GroupGo plainCfg exC1Nodes [] false 4).err =
        some (.grouped (.base "X_ERR") [.base "F_ERR"])
    ∧ exC1Errs = [some (.base "F_ERR"), some (.grouped (.base "X_ERR") [.base "F_ERR"])]
    ∧ claimLeafErrs exC1Nodes exC1Errs =
        [.base "F_ERR", .grouped (.base "X_ERR") [.base "F_ERR"]]
    ∧ immediateElems (.grouped (.base "X_ERR") [.base "F_ERR"]) =
        [.grouped (.base "X_ERR") [.base "F_ERR"]]
    ∧ (GoErr.base "F_ERR") ∉ immediateElems (.grouped (.base "X_ERR") [.base "F_ERR"]) := by
  refine ⟨rfl, rfl, rfl, rfl, ?_⟩
  simp [immediateElems]

/-- Witness for C1's amended theorem: on the counterexample graph the
leaf set is the singleton `[X_ERR <- F_ERR]` and `Group.Go` returns it
as-is. -/
theorem leafError_spec_witness :
    (GroupGo plainCfg exC1Nodes [] false 4).err =
        leafError exC1Nodes exC1Errs
    ∧ leafError exC1Nodes exC1Errs =
        some (.grouped (.base "X_ERR") [.base "F_ERR"]) := by
  constructor
  · exact (leafError_spec exC1Nodes exC1Errs).2.2.2 plainCfg [] 4 rfl rfl rfl
      (by simp [exC1Nodes]) rfl rfl
  · exact (leafError_spec exC1Nodes exC1Errs).2.1 _ rfl

/-! ## Claim C3: failing group pre-interceptor -/

/-- C3 (amended): when the group pre-interceptor is configured and
returns an error, `Group.Go` returns that error immediately — no node
body runs and no rollback runs — and the group after-interceptor is
NOT invoked: the early `return err` happens before the deferred
epilogue (which is what invokes `After`) is installed. -/
theorem groupGo_preError (cfg : GroupCfg) (nodes : List GoNode)
    (shared : List GoAny) (tf : Bool) (fuel : Nat) (e : GoErr)
    (hn : nodes ≠ []) (hpre : cfg.pre = some (some e)) :
    GroupGo cfg nodes shared tf fuel = ⟨some e, [], [], false⟩ := by
  have hEmpty : nodes.isEmpty = false := by
    simpa [List.isEmpty_iff] using hn
  simp only [GroupGo, hEmpty, Bool.false_eq_true, if_false, hpre]

/-- Witness for C3's amended theorem at a concrete group. -/
theorem groupGo_preError_witness :
    GroupGo { gname := "anonymous"
              pre := some (some (.base "PRE"))
              after := none
              hasTimeout := false } exC3Nodes [] false 4 =
      ⟨some (.base "PRE"), [], [], false⟩ :=
  groupGo_preError _ _ _ _ _ _ (by simp [exC3Nodes]) rfl

/-- Counterexample to C3 as stated: with a failing pre-interceptor and
an after-interceptor that maps every error to `AFTER`, the claim
("After is still invoked as the last step on the final error") would
force `afterRan = true` and a final error of `AFTER`; the code returns
the pre error with the after-interceptor never invoked. -/
theorem groupGo_preError_counterexample :
    (GroupGo exC3Cfg exC3Nodes [] false 4).afterRan = false
    ∧ (GroupGo exC3Cfg exC3Nodes [] false 4).err = some (.base "PRE")
    ∧ ¬ ((GroupGo exC3Cfg exC3Nodes [] false 4).afterRan = true
        ∧ (GroupGo exC3Cfg exC3Nodes [] false 4).err = some (.base "AFTER")) := by
  refine ⟨rfl, rfl, ?_⟩
  intro h
  have := h.1
  rw [show (GroupGo exC3Cfg exC3Nodes [] false 4).afterRan = false from rfl] at this
  exact Bool.false_ne_true this

/-! ## Claim C4: the group timeout path -/

theorem rollbackRun_all_ok (nodes : List GoNode) (tracked : List Nat)
    (h : ∀ n ∈ nodes, n.rollbackRes = none) :
    rollbackRun nodes tracked = (none, tracked.reverse) := by
  unfold rollbackRun
  have hnil : tracked.reverse.filterMap (fun i =>
      (nodes.get? i).bind (fun n =>
        n.rollbackRes.map (fun e =>
          GoErr.wrapf ("rollback " ++ n.key.getD "<nil>" ++ " failed: " ++ errString e) [e]))) = [] := by
    rw [List.filterMap_eq_nil_iff]
    intro i _
    cases hg : nodes.get? i with
    | none => rfl
    | some n =>
      have hmem : n ∈ nodes := List.get?_mem hg
      simp [h n hmem]
  simp [hnil]
  intro x _ n hg
  exact h n (List.getElem?_mem hg)

/-- C4 (amended): when the group deadline elapses while workers are
pending, `Group.Go` returns the error `"group <prefix> timeout"` (the
prefix defaults to `"anonymous"` in `NewGroup`), and the rollback phase
DOES run: every node tracked before the deadline is rolled back, in
reverse completion order (here with all rollbacks succeeding and no
group after-interceptor, so the timeout error is returned unchanged). -/
theorem groupGo_timeout (cfg : GroupCfg) (nodes : List GoNode) (shared : List GoAny)
    (fuel : Nat) (hn : nodes ≠ []) (hto : cfg.hasTimeout = true)
    (hpre : cfg.pre = none) (hafter : cfg.after = none)
    (hrb : ∀ n ∈ nodes, n.rollbackRes = none) :
    (GroupGo cfg nodes shared true fuel).err =
        some (.base ("group " ++ cfg.gname ++ " timeout"))
    ∧ (GroupGo cfg nodes shared true fuel).rolledBack =
        (if (nodes.any fun n => n.hasRollback) then
          (groupExecSt nodes (nodes.any fun n => n.hasRollback)
            (packShared shared) fuel).tracked.reverse
         else [])
    ∧ newGroupName "" = "anonymous" := by
  have hEmpty : nodes.isEmpty = false := by
    simpa [List.isEmpty_iff] using hn
  simp only [GroupGo, hEmpty, Bool.false_eq_true, if_false, hpre, hafter, hto,
    Bool.true_and, if_true, Option.isSome_some, Bool.true_and]
  by_cases htr : (nodes.any fun n => n.hasRollback) = true
  · simp only [htr, if_true, Bool.and_true,
      rollbackRun_all_ok nodes _ hrb]
    simp [newGroupName]
  · have htr' : (nodes.any fun n => n.hasRollback) = false := by
      simpa using htr
    simp only [htr', Bool.and_false, Bool.false_eq_true, if_false]
    simp [newGroupName]

/-- Witness for C4's amended theorem on the concrete timeout group:
node 0 (with a rollback) completed before the deadline, so it is rolled
back. -/
theorem groupGo_timeout_witness :
    (GroupGo exC4Cfg exC4Nodes [] true 1).err =
        some (.base ("group " ++ exC4Cfg.gname ++ " timeout"))
    ∧ (GroupGo exC4Cfg exC4Nodes [] true 1).rolledBack =
        (if (exC4Nodes.any fun n => n.hasRollback) then
          (groupExecSt exC4Nodes (exC4Nodes.any fun n => n.hasRollback)
            GoAny.nilV 1).tracked.reverse
         else []) := by
  have h := groupGo_timeout exC4Cfg exC4Nodes [] 1 (by simp [exC4Nodes]) rfl rfl rfl
    (by
      intro n hn
      simp only [exC4Nodes, mkNode, List.mem_cons, List.mem_singleton] at hn
      rcases hn with h | h | h
      · rw [h]
      · rw [h]
      · exact absurd h (by simp))
  exact ⟨h.1, h.2.1⟩

/-- Counterexample to C4 as stated: on the concrete timeout group the
rollback list is `[0]`, not empty — the rollback phase did run for the
node that completed and was tracked before the deadline. -/
theorem groupGo_timeout_counterexample :
    (GroupGo exC4Cfg exC4Nodes [] true 1).err = some (.base "group anonymous timeout")
    ∧ (GroupGo exC4Cfg exC4Nodes [] true 1).rolledBack = [0]
    ∧ ([0] : List Nat) ≠ [] := by
  refine ⟨rfl, rfl, by simp⟩

/-! ## Claim C5: retry / node pre / node after discipline -/

theorem runAttempts_len (body : Nat → Option GoErr) :
    ∀ fuel i, (runAttempts body fuel i).2.length ≤ fuel + 1 := by
  intro fuel
  induction fuel with
  | zero =>
    intro i
    unfold runAttempts
    cases body i <;> simp
  | succ f ih =>
    intro i
    unfold runAttempts
    cases body i with
    | none => simp
    | some e => simpa using Nat.succ_le_succ (ih (i + 1))

theorem runAttempts_first_success (body : Nat → Option GoErr) :
    ∀ k fuel i, k ≤ fuel → (∀ j, j < k → (body (i + j)).isSome) →
      body (i + k) = none →
      runAttempts body fuel i = (none, List.range' i (k + 1)) := by
  intro k
  induction k with
  | zero =>
    intro fuel i _ _ h0
    rw [Nat.add_zero] at h0
    unfold runAttempts
    rw [h0]
    rfl
  | succ k ih =>
    intro fuel i hk hsome hnone
    have h0 : (body i).isSome := by simpa using hsome 0 (Nat.succ_pos k)
    obtain ⟨e, he⟩ := Option.isSome_iff_exists.mp h0
    obtain ⟨f, rfl⟩ : ∃ f, fuel = f + 1 := ⟨fuel - 1, by omega⟩
    unfold runAttempts
    rw [he]
    have hrec := ih f (i + 1) (by omega)
      (fun j hj => by
        rw [show i + 1 + j = i + (j + 1) by omega]
        exact hsome (j + 1) (by omega))
      (by rw [show i + 1 + k = i + (k + 1) by omega]; exact hnone)
    simp only [hrec]
    rw [show List.range' i (k + 1 + 1) = i :: List.range' (i + 1) (k + 1) from rfl]

/-- C5: for a node configured with `WithRetry(R)` the task body runs at
most `1 + R` times and stops at the first success; the node
pre-interceptor runs exactly once per node execution (not once per
attempt); the node after-interceptor runs exactly once, after all
retries, and its return value replaces the task's error. -/
theorem isBody_comp_eq :
    ((fun ev => isBodyEv ev) ∘ NodeEv.bodyEv) = fun _ : Nat => true := by
  funext a
  rfl

theorem isPre_comp_eq :
    ((fun ev => isPreEv ev) ∘ NodeEv.bodyEv) = fun _ : Nat => false := by
  funext a
  rfl

theorem countP_isBody_map (l : List Nat) :
    (l.map NodeEv.bodyEv).countP (fun ev => isBodyEv ev) = l.length := by
  rw [List.countP_map, isBody_comp_eq, List.countP_true]

theorem countP_isPre_map (l : List Nat) :
    (l.map NodeEv.bodyEv).countP (fun ev => isPreEv ev) = 0 := by
  rw [List.countP_map, isPre_comp_eq]
  simp [List.countP_eq_zero]

theorem isBodyEv_pre : isBodyEv .preEv = false := rfl

theorem isBodyEv_after : isBodyEv .afterEv = false := rfl

theorem isPreEv_pre : isPreEv .preEv = true := rfl

theorem filter_isBody_map (l : List Nat) :
    (l.map NodeEv.bodyEv).filter (fun ev => isBodyEv ev) = l.map NodeEv.bodyEv := by
  rw [List.filter_map, isBody_comp_eq, List.filter_true]

theorem nodeExec_retry_spec (n : GoNode) (sh : GoAny) :
    ((nodeBodyPhase n sh).2.countP (fun ev => isBodyEv ev) ≤ n.retry + 1)
    ∧ (n.pre.isSome → (nodeBodyPhase n sh).2.countP (fun ev => isPreEv ev) = 1)
    ∧ (∀ k, k ≤ n.retry → (∀ j, j < k → (n.body sh j).isSome) → n.body sh k = none →
        (∀ e, n.pre ≠ some (some e)) →
        (nodeBodyPhase n sh).1 = none
        ∧ (nodeBodyPhase n sh).2.filter (fun ev => isBodyEv ev) =
            (List.range (k + 1)).map NodeEv.bodyEv)
    ∧ (∀ f, n.after = some f → ∀ e, nodeAfterPhase n e = (f e, [.afterEv])) := by
  have hlen : (if n.retry > 0 then runAttempts (n.body sh) n.retry 0
      else ((n.body sh 0), [0])).2.length ≤ n.retry + 1 := by
    by_cases hr : n.retry > 0
    · rw [if_pos hr]
      exact runAttempts_len (n.body sh) n.retry 0
    · rw [if_neg hr]
      simp
  refine ⟨?_, ?_, ?_, ?_⟩
  · unfold nodeBodyPhase
    rcases n.pre with _ | ⟨_ | e⟩
    · rw [countP_isBody_map]
      exact hlen
    · rw [List.countP_cons, countP_isBody_map]
      simp only [isBodyEv_pre, Bool.false_eq_true, if_false, Nat.add_zero]
      exact hlen
    · simp [List.countP_cons, isBodyEv_pre]
  · intro hp
    unfold nodeBodyPhase
    rcases hpe : n.pre with _ | ⟨_ | e⟩
    · rw [hpe] at hp
      simp at hp
    · rw [List.countP_cons, countP_isPre_map]
      simp [isPreEv_pre]
    · simp [List.countP_cons, isPreEv_pre]
  · intro k hk hsome hnone hpre
    have hret : (if n.retry > 0 then runAttempts (n.body sh) n.retry 0
        else ((n.body sh 0), [0])) = (none, List.range' 0 (k + 1)) := by
      by_cases hr : n.retry > 0
      · rw [if_pos hr]
        exact runAttempts_first_success (n.body sh) k n.retry 0 hk
          (fun j hj => by simpa using hsome j hj) (by simpa using hnone)
      · rw [if_neg hr]
        have hk0 : k = 0 := by omega
        subst hk0
        rw [show n.body sh 0 = none from hnone]
        rfl
    unfold nodeBodyPhase
    rcases hp : n.pre with _ | ⟨_ | e⟩
    · simp only [hret]
      refine ⟨trivial, ?_⟩
      rw [filter_isBody_map, List.range_eq_range']
    · simp only [hret]
      refine ⟨trivial, ?_⟩
      rw [List.filter_cons]
      simp only [isBodyEv_pre, Bool.false_eq_true, if_false]
      rw [filter_isBody_map, List.range_eq_range']
    · exact absurd hp (hpre e)
  · intro f hf e
    unfold nodeAfterPhase
    rw [hf]

/-- Witness for C5 on a concrete node with `WithRetry(2)` whose body
fails once then succeeds: attempts `[0, 1]` run, the pre-interceptor
runs once, the after-interceptor replaces the error. -/
theorem nodeExec_retry_spec_witness :
    (nodeBodyPhase exC5Node GoAny.nilV).1 = none
    ∧ (nodeBodyPhase exC5Node GoAny.nilV).2.filter (fun ev => isBodyEv ev) =
        (List.range 2).map NodeEv.bodyEv
    ∧ (nodeBodyPhase exC5Node GoAny.nilV).2.countP (fun ev => isPreEv ev) = 1
    ∧ nodeAfterPhase exC5Node none = (none, [NodeEv.afterEv]) := by
  have h := nodeExec_retry_spec exC5Node GoAny.nilV
  have h3 := h.2.2.1 1 (by simp [exC5Node, mkNode])
    (by
      intro j hj
      have hj0 : j = 0 := by omega
      subst hj0
      rfl)
    rfl
    (by
      intro e he
      simp [exC5Node, mkNode] at he)
  exact ⟨h3.1, h3.2, h.2.1 rfl, h.2.2.2 (fun e => e) rfl none⟩

/-! ## Claim C8: shared-value packing and threading -/

theorem mem_calls_append {st : ExecSt} {n : GoNode} {sh : GoAny}
    {run : List NodeEv} {c : BodyCall}
    (hc : c ∈ st.calls ++ run.filterMap (fun ev =>
      match ev with
      | NodeEv.bodyEv a => some ⟨n.idx, a, sh⟩
      | _ => none)) : c ∈ st.calls ∨ c.shared = sh := by
  rcases List.mem_append.mp hc with h1 | h2
  · exact Or.inl h1
  · right
    obtain ⟨ev, _, hev⟩ := List.mem_filterMap.mp h2
    cases ev with
    | preEv => exact absurd hev (by simp)
    | afterEv => exact absurd hev (by simp)
    | bodyEv a =>
      cases hev
      rfl

theorem processNode_calls (nodes : List GoNode) (tr : Bool) (sh : GoAny)
    (st : ExecSt) (i : Nat) :
    ∀ c ∈ (processNode nodes tr sh st i).1.calls, c ∈ st.calls ∨ c.shared = sh := by
  intro c hc
  unfold processNode at hc
  repeat' (split at hc)
  all_goals try dsimp only at hc
  all_goals repeat' (split at hc)
  all_goals first
    | exact Or.inl hc
    | exact mem_calls_append hc

theorem execLoop_calls (nodes : List GoNode) (tr : Bool) (sh : GoAny) :
    ∀ fuel queue st, (∀ c ∈ st.calls, c.shared = sh) →
      ∀ c ∈ (execLoop nodes tr sh fuel queue st).calls, c.shared = sh := by
  intro fuel
  induction fuel with
  | zero =>
    intro queue st h c hc
    exact h c hc
  | succ f ih =>
    intro queue st h c hc
    cases queue with
    | nil => exact h c hc
    | cons i q =>
      refine ih (q ++ (processNode nodes tr sh st i).2)
        (processNode nodes tr sh st i).1 ?_ c hc
      intro c' hc'
      rcases processNode_calls nodes tr sh st i c' hc' with h1 | h2
      · exact h c' h1
      · exact h2

/-- C8: the shared-value packing rule of `Group.Go` — an empty variadic
is seen as nil, a single element is seen as that element, several
elements are seen as the whole list — and every task body invocation of
the run observes exactly the packed shared value. -/
theorem groupGo_shared_spec (cfg : GroupCfg) (nodes : List GoNode)
    (shared : List GoAny) (tf : Bool) (fuel : Nat) :
    packShared [] = GoAny.nilV
    ∧ (∀ x, packShared [x] = x)
    ∧ (∀ x y rest, packShared (x :: y :: rest) = .list (x :: y :: rest))
    ∧ (∀ c ∈ (GroupGo cfg nodes shared tf fuel).calls, c.shared = packShared shared) := by
  refine ⟨rfl, fun x => rfl, fun x y rest => rfl, ?_⟩
  intro c hc
  unfold GroupGo at hc
  repeat' (split at hc)
  all_goals first
    | exact absurd hc (List.not_mem_nil c)
    | exact execLoop_calls nodes _ _ fuel (rootQueue nodes) (initExecSt nodes)
        (by intro c' hc'; simp [initExecSt] at hc') c hc

/-- Witness for C8: a single-element variadic is observed bare by the
task. -/
theorem groupGo_shared_spec_witness :
    (GroupGo plainCfg exC8Nodes [GoAny.val "s"] false 2).calls =
        [⟨0, 0, GoAny.val "s"⟩]
    ∧ (⟨0, 0, GoAny.val "s"⟩ : BodyCall).shared = packShared [GoAny.val "s"] := by
  refine ⟨rfl, ?_⟩
  refine (groupGo_shared_spec plainCfg exC8Nodes [GoAny.val "s"] false 2).2.2.2
    ⟨0, 0, GoAny.val "s"⟩ ?_
  rw [show (GroupGo plainCfg exC8Nodes [GoAny.val "s"] false 2).calls =
    [⟨0, 0, GoAny.val "s"⟩] from rfl]
  exact List.mem_singleton.mpr rfl

/-! ## Claim C7: `TryGo`'s admission check -/

/-- C7 (amended): for non-empty `fs` and non-nil opts, `TryGo` returns
`(false, "limit cannot be less than the number of funcs")` without
running any task exactly when `opts.Limit < len(fs)`.  Since the check
compares the raw `Limit` field, the zero default is also rejected for
non-empty `fs` — "Limit 0 means no cap" does not apply to this check
(it holds only for nil opts, where every task is accepted and run, and
for the concurrency cap computed after the check passes). -/
theorem tryGo_limit_spec (o : FlatOpts) (fs : List (Option GoErr)) (hne : fs ≠ []) :
    (o.limit < fs.length →
      TryGo (some o) fs =
        (false, some (.base "limit cannot be less than the number of funcs"), []))
    ∧ (fs.length ≤ o.limit → o.pre = none →
      TryGo (some o) fs =
        (true,
         (match o.after with
          | some f => f (firstErr fs)
          | none => firstErr fs),
         List.range fs.length))
    ∧ (o.limit = 0 →
      TryGo (some o) fs =
        (false, some (.base "limit cannot be less than the number of funcs"), []))
    ∧ TryGo none fs = (true, firstErr fs, List.range fs.length) := by
  have hEmpty : fs.isEmpty = false := by
    simpa [List.isEmpty_iff] using hne
  have hlen : 0 < fs.length := List.length_pos.mpr hne
  refine ⟨?_, ?_, ?_, ?_⟩
  · intro hlim
    unfold TryGo
    rw [hEmpty]
    simp only [Bool.false_eq_true, if_false, if_pos hlim]
  · intro hlim hpre
    unfold TryGo
    rw [hEmpty]
    simp only [Bool.false_eq_true, if_false, if_neg (Nat.not_lt.mpr hlim), hpre]
    cases o.after <;> rfl
  · intro h0
    unfold TryGo
    rw [hEmpty]
    simp only [Bool.false_eq_true, if_false, h0, if_pos hlen]
  · unfold TryGo
    rw [hEmpty]
    rfl

/-- Witness for C7's amended theorem: with the default `Limit = 0` and
one task, `TryGo` rejects. -/
theorem tryGo_limit_spec_witness :
    TryGo (some { limit := 0, pre := none, after := none }) [none] =
      (false, some (.base "limit cannot be less than the number of funcs"), []) :=
  (tryGo_limit_spec { limit := 0, pre := none, after := none } [none]
    (by simp)).2.2.1 rfl

/-- Counterexample to C7 as stated: the claim's "Limit 0 means no cap
(all tasks are accepted and run)" fails — with `Limit = 0` and one
task, `TryGo` returns `(false, limit error, no tasks run)` rather than
accepting and running the task. -/
theorem tryGo_limit_counterexample :
    ¬ ((TryGo (some { limit := 0, pre := none, after := none }) [none]).1 = true
        ∧ (TryGo (some { limit := 0, pre := none, after := none }) [none]).2.2 =
            List.range 1) := by
  intro h
  have h1 := h.1
  rw [show (TryGo (some { limit := 0, pre := none, after := none }) [none]).1 = false
    from rfl] at h1
  exact Bool.false_ne_true h1

/-! ## Claim C9: `SafeRun` -/

/-- C9: `SafeRun` never propagates a panic — it is a total function on
task outcomes.  A normal return is passed through unmodified (nil or
not); a panic is converted to a non-nil error whose chain includes the
`"panic recovered"` sentinel and the panic value, and whose message
carries the captured source location when one is available. -/
theorem safeRun_spec :
    (∀ e, SafeRun (.normal e) = e)
    ∧ (∀ v loc, SafeRun (.panicked v loc) = some (recoverErr v loc))
    ∧ (∀ v loc, ErrIs (recoverErr v loc) ErrPanic)
    ∧ (∀ v loc, ErrIs (recoverErr v loc) (panicErrOf v))
    ∧ (∀ v, errString (recoverErr v none) =
        errString ErrPanic ++ ": " ++ errString (panicErrOf v))
    ∧ (∀ v l, errString (recoverErr v (some l)) =
        errString ErrPanic ++ " at " ++ l ++ ": " ++ errString (panicErrOf v))
    ∧ errString ErrPanic = "panic recovered" := by
  refine ⟨fun e => rfl, fun v loc => rfl, ?_, ?_, ?_, ?_, ?_⟩
  · intro v loc
    cases loc <;>
      exact .chain (by simp [unwrapList, recoverErr]) (.refl _)
  · intro v loc
    cases loc <;>
      exact .chain (by simp [unwrapList, recoverErr]) (.refl _)
  · intro v
    simp [recoverErr, errString]
  · intro v l
    simp [recoverErr, errString]
  · simp [ErrPanic, errString]

/-! ## Claim C10: the copy-on-write map store -/

/-- C10: round-trip and frame laws of the map store — `Load` after
`Store(k, v)` yields `(v, true)`; `Load` of a key never stored yields
`ok = false`; and `Store(k, v)` leaves the value observed at every
other key unchanged. -/
theorem mapStore_laws {α β : Type} [DecidableEq α] :
    (∀ (m : α → Option β) (k : α) (v : β),
      mapStoreLoad (mapStoreStore m k v) k = (some v, true))
    ∧ (∀ (ops : List (α × β)) (k : α), (∀ p ∈ ops, p.1 ≠ k) →
      mapStoreLoad (applyStores ops) k = (none, false))
    ∧ (∀ (m : α → Option β) (k : α) (v : β) (q : α), q ≠ k →
      mapStoreLoad (mapStoreStore m k v) q = mapStoreLoad m q) := by
  refine ⟨?_, ?_, ?_⟩
  · intro m k v
    simp [mapStoreLoad, mapStoreStore]
  · intro ops k hk
    have key : ∀ (ops' : List (α × β)) (m : α → Option β),
        (∀ p ∈ ops', p.1 ≠ k) → m k = none →
        (ops'.foldl (fun m p => mapStoreStore m p.1 p.2) m) k = none := by
      intro ops'
      induction ops' with
      | nil =>
        intro m _ hm
        exact hm
      | cons p rest ih =>
        intro m hk' hm
        have hp : p.1 ≠ k := hk' p (List.mem_cons_self p rest)
        refine ih (mapStoreStore m p.1 p.2)
          (fun p' hp' => hk' p' (List.mem_cons_of_mem p hp')) ?_
        simp [mapStoreStore, hm, if_neg (Ne.symm hp)]
    have h0 := key ops emptyMapStore hk rfl
    simp [mapStoreLoad, applyStores, h0]
  · intro m k v q hq
    simp [mapStoreLoad, mapStoreStore, hq]

/-- Witness for C10 at concrete keys. -/
theorem mapStore_laws_witness :
    mapStoreLoad (mapStoreStore (emptyMapStore : String → Option GoAny) "k"
      (GoAny.val "v")) "k" = (some (GoAny.val "v"), true)
    ∧ mapStoreLoad (applyStores [("a", GoAny.val "v")]) "b" =
      ((none : Option GoAny), false) := by
  constructor
  · exact (mapStore_laws).1 emptyMapStore "k" (GoAny.val "v")
  · exact (mapStore_laws).2.1 [("a", GoAny.val "v")] "b"
      (by intro p hp; rw [List.mem_singleton.mp hp]; simp)

/-! ## Claim C6: `Group.Verify` cycle detection

Unfolding equations for the mutual DFS. -/

theorem dfsVisit_eq (g : List (String × List String)) (fuel : Nat)
    (stk visited : List String) (k : String) :
    dfsVisit g fuel stk visited k =
      if k ∈ stk then (some [k], visited)
      else if k ∈ visited then (none, visited)
      else
        match fuel with
        | 0 => (none, visited)
        | fuel + 1 => dfsFold g fuel (k :: stk) (k :: visited) k (adjOf g k) := by
  rw [dfsVisit.eq_def]

theorem dfsFold_nil (g : List (String × List String)) (fuel : Nat)
    (stk visited : List String) (k : String) :
    dfsFold g fuel stk visited k [] = (none, visited) := by
  rw [dfsFold.eq_def]

theorem dfsFold_cons (g : List (String × List String)) (fuel : Nat)
    (stk visited : List String) (k c : String) (cs : List String) :
    dfsFold g fuel stk visited k (c :: cs) =
      match dfsVisit g fuel stk visited c with
      | (some q, v') => (some (k :: q), v')
      | (none, v') => dfsFold g fuel stk v' k cs := by
  rw [dfsFold.eq_def]

/-- Along a dependency chain, every later element is transitively
reachable from the head. -/
theorem chain'_transGen_of_mem {R : String → String → Prop} :
    ∀ (l : List String) (a b : String), List.Chain' R (a :: l) → b ∈ l →
      Relation.TransGen R a b := by
  intro l
  induction l with
  | nil =>
    intro a b _ hb
    cases hb
  | cons c l' ih =>
    intro a b hch hb
    have hR : R a c := (List.chain'_cons.mp hch).1
    rcases List.mem_cons.mp hb with rfl | hb'
    · exact .single hR
    · exact (Relation.TransGen.single hR).trans (ih c b (List.chain'_cons.mp hch).2 hb')

/-- A chain whose last element repeats an earlier element witnesses a
dependency cycle. -/
theorem cycle_of_repeat {R : String → String → Prop} :
    ∀ (p : List String) (t : String), List.Chain' R p → p.getLast? = some t →
      t ∈ p.dropLast → Relation.TransGen R t t := by
  intro p
  induction p with
  | nil =>
    intro t _ _ hmem
    simp at hmem
  | cons a rest ih =>
    intro t hch hlast hmem
    cases rest with
    | nil => simp at hmem
    | cons b rest' =>
      rw [show (a :: b :: rest').dropLast = a :: (b :: rest').dropLast from rfl] at hmem
      rw [List.getLast?_cons_cons] at hlast
      rcases List.mem_cons.mp hmem with rfl | hmem'
      · have hmem2 : t ∈ b :: rest' := List.mem_of_mem_getLast? hlast
        exact chain'_transGen_of_mem (b :: rest') t t hch hmem2
      · exact ih t hch.tail hlast hmem'

/-- Soundness of the DFS cycle report: a returned path starts at the
visited key, follows dependency edges, and its last key is gray — on
the incoming stack or repeated inside the path itself. -/
theorem dfs_sound (g : List (String × List String)) : ∀ fuel : Nat,
    (∀ stk visited k p v, dfsVisit g fuel stk visited k = (some p, v) →
      p.head? = some k ∧ List.Chain' (EdgeG g) p ∧
        ∃ t, p.getLast? = some t ∧ (t ∈ stk ∨ t ∈ p.dropLast))
    ∧ (∀ stk visited k cs p v, dfsFold g fuel stk visited k cs = (some p, v) →
      ∃ c q, c ∈ cs ∧ p = k :: q ∧ q.head? = some c ∧ List.Chain' (EdgeG g) q ∧
        ∃ t, q.getLast? = some t ∧ (t ∈ stk ∨ t ∈ q.dropLast)) := by
  have visit_step :
      ∀ fuel, (∀ stk visited k cs p v, dfsFold g fuel stk visited k cs = (some p, v) →
          ∃ c q, c ∈ cs ∧ p = k :: q ∧ q.head? = some c ∧ List.Chain' (EdgeG g) q ∧
            ∃ t, q.getLast? = some t ∧ (t ∈ stk ∨ t ∈ q.dropLast)) →
        ∀ stk visited k p v, dfsVisit g (fuel + 1) stk visited k = (some p, v) →
          p.head? = some k ∧ List.Chain' (EdgeG g) p ∧
            ∃ t, p.getLast? = some t ∧ (t ∈ stk ∨ t ∈ p.dropLast) := by
    intro fuel hfold stk visited k p v h
    rw [dfsVisit_eq] at h
    by_cases hstk : k ∈ stk
    · rw [if_pos hstk] at h
      cases h
      exact ⟨rfl, List.chain'_singleton k, k, rfl, Or.inl hstk⟩
    · rw [if_neg hstk] at h
      by_cases hvis : k ∈ visited
      · rw [if_pos hvis] at h
        cases h
      · rw [if_neg hvis] at h
        obtain ⟨c, q, hc, rfl, hhead, hchain, t, hlast, ht⟩ :=
          hfold (k :: stk) (k :: visited) k (adjOf g k) p v h
        obtain ⟨q', rfl⟩ : ∃ q', q = c :: q' := by
          cases q with
          | nil => cases hhead
          | cons x q' => cases hhead; exact ⟨q', rfl⟩
        refine ⟨rfl, ?_, t, ?_, ?_⟩
        · exact List.chain'_cons.mpr ⟨hc, hchain⟩
        · rw [List.getLast?_cons_cons]
          exact hlast
        · rcases ht with hts | htd
          · rcases List.mem_cons.mp hts with rfl | hts'
            · right
              rw [show (t :: c :: q').dropLast = t :: (c :: q').dropLast from rfl]
              exact List.mem_cons_self _ _
            · exact Or.inl hts'
          · right
            rw [show (k :: c :: q').dropLast = k :: (c :: q').dropLast from rfl]
            exact List.mem_cons_of_mem _ htd
  have fold_step :
      ∀ fuel, (∀ stk visited k p v, dfsVisit g fuel stk visited k = (some p, v) →
          p.head? = some k ∧ List.Chain' (EdgeG g) p ∧
            ∃ t, p.getLast? = some t ∧ (t ∈ stk ∨ t ∈ p.dropLast)) →
        ∀ cs stk visited k p v, dfsFold g fuel stk visited k cs = (some p, v) →
          ∃ c q, c ∈ cs ∧ p = k :: q ∧ q.head? = some c ∧ List.Chain' (EdgeG g) q ∧
            ∃ t, q.getLast? = some t ∧ (t ∈ stk ∨ t ∈ q.dropLast) := by
    intro fuel hvisit cs
    induction cs with
    | nil =>
      intro stk visited k p v h
      rw [dfsFold_nil] at h
      cases h
    | cons c cs' ih =>
      intro stk visited k p v h
      rw [dfsFold_cons] at h
      cases hv : dfsVisit g fuel stk visited c with
      | mk r v' =>
        cases r with
        | some q =>
          rw [hv] at h
          cases h
          obtain ⟨hhead, hchain, t, hlast, ht⟩ := hvisit stk visited c q _ hv
          exact ⟨c, q, List.mem_cons_self _ _, rfl, hhead, hchain, t, hlast, ht⟩
        | none =>
          rw [hv] at h
          obtain ⟨c', q, hc', rest⟩ := ih stk v' k p v h
          exact ⟨c', q, List.mem_cons_of_mem _ hc', rest⟩
  intro fuel
  induction fuel with
  | zero =>
    have hv0 : ∀ stk visited k p v, dfsVisit g 0 stk visited k = (some p, v) →
        p.head? = some k ∧ List.Chain' (EdgeG g) p ∧
          ∃ t, p.getLast? = some t ∧ (t ∈ stk ∨ t ∈ p.dropLast) := by
      intro stk visited k p v h
      rw [dfsVisit_eq] at h
      by_cases hstk : k ∈ stk
      · rw [if_pos hstk] at h
        cases h
        exact ⟨rfl, List.chain'_singleton k, k, rfl, Or.inl hstk⟩
      · rw [if_neg hstk] at h
        by_cases hvis : k ∈ visited
        · rw [if_pos hvis] at h
          cases h
        · rw [if_neg hvis] at h
          cases h
    exact ⟨hv0, fun stk visited k cs => fold_step 0 hv0 cs stk visited k⟩
  | succ f ihf =>
    have hv := visit_step f ihf.2
    exact ⟨hv, fun stk visited k cs => fold_step (f + 1) hv cs stk visited k⟩

/-! Counting lemmas: discovery strictly shrinks the undiscovered key
set, which bounds the DFS recursion depth. -/

theorem unvis_mono (g : List (String × List String)) {v v' : List String}
    (h : v ⊆ v') : unvis g v' ≤ unvis g v := by
  apply List.countP_mono_left
  intro a _ ha
  simp only [decide_eq_true_eq] at ha ⊢
  exact fun hav => ha (h hav)

theorem unvis_pos (g : List (String × List String)) {k : String}
    {visited : List String} (hk : k ∈ keysOf g) (hv : k ∉ visited) :
    1 ≤ unvis g visited := by
  have : 0 < (keysOf g).countP (fun x => x ∉ visited) :=
    List.countP_pos_iff.mpr ⟨k, hk, by simpa using hv⟩
  unfold unvis
  omega

theorem unvis_cons_le (g : List (String × List String)) {k : String}
    {visited : List String} (hk : k ∈ keysOf g) (hv : k ∉ visited) :
    unvis g (k :: visited) + 1 ≤ unvis g visited := by
  unfold unvis
  have main : ∀ l : List String, k ∈ l →
      l.countP (fun x => x ∉ (k :: visited)) + 1 ≤ l.countP (fun x => x ∉ visited) := by
    intro l
    induction l with
    | nil =>
      intro h
      cases h
    | cons a l' ih =>
      intro hmem
      rw [List.countP_cons, List.countP_cons]
      have hmono : l'.countP (fun x => x ∉ (k :: visited)) ≤
          l'.countP (fun x => x ∉ visited) :=
        List.countP_mono_left (fun x _ hx => by
          simp only [decide_eq_true_eq] at hx ⊢
          exact fun hav => hx (List.mem_cons_of_mem _ hav))
      rcases List.mem_cons.mp hmem with rfl | hmem'
      · have h1 : (decide (k ∉ (k :: visited))) = false := by simp
        have h2 : (decide (k ∉ visited)) = true := by simpa using hv
        rw [h1, h2]
        simp only [Bool.false_eq_true, if_false, if_true, Nat.add_zero]
        omega
      · have hstep := ih hmem'
        have hpt : (if (decide (a ∉ (k :: visited))) = true then 1 else 0) ≤
            (if (decide (a ∉ visited)) = true then 1 else 0) := by
          by_cases h : a ∉ (k :: visited)
          · have h2 : a ∉ visited := fun hx => h (List.mem_cons_of_mem _ hx)
            simp [h, h2]
          · have hin : a ∈ k :: visited := not_not.mp h
            rcases List.mem_cons.mp hin with rfl | hav
            · simp
            · simp [hav]
        omega
  exact main (keysOf g) hk

theorem unvis_le_length (g : List (String × List String))
    (visited : List String) : unvis g visited ≤ g.length := by
  calc unvis g visited ≤ (keysOf g).length := List.countP_le_length _
    _ = g.length := by simp [keysOf]

/-- Black keys reach only black keys. -/
theorem reach_black (g : List (String × List String)) (stk visited : List String)
    (h1 : BlackClosed g stk visited) :
    ∀ b x, Relation.ReflTransGen (EdgeG g) b x → b ∈ visited → b ∉ stk →
      x ∈ visited ∧ x ∉ stk := by
  intro b x hr
  induction hr with
  | refl => exact fun hv hs => ⟨hv, hs⟩
  | tail hr' hstep ih =>
    intro hv hs
    obtain ⟨hv', hs'⟩ := ih hv hs
    exact h1 _ hv' hs' _ hstep

/-- Completeness of the DFS: when a visit reports no cycle, the visited
key ends up black, blackness is preserved, and no cycle passes through
any black key. -/
theorem dfs_complete (g : List (String × List String)) (hclosed : AdjClosed g) :
    ∀ fuel : Nat,
    (∀ stk visited k, k ∈ keysOf g → unvis g visited ≤ fuel →
      BlackClosed g stk visited → BlackAcyclic g stk visited →
      ∀ v, dfsVisit g fuel stk visited k = (none, v) →
        visited ⊆ v ∧ k ∈ v ∧ k ∉ stk
        ∧ (∀ x ∈ v, x ∈ visited ∨ x ∉ stk)
        ∧ BlackClosed g stk v ∧ BlackAcyclic g stk v)
    ∧ (∀ cs stk visited k, (∀ c ∈ cs, c ∈ keysOf g) → unvis g visited ≤ fuel →
      BlackClosed g stk visited → BlackAcyclic g stk visited →
      ∀ v, dfsFold g fuel stk visited k cs = (none, v) →
        visited ⊆ v ∧ (∀ c ∈ cs, c ∈ v ∧ c ∉ stk)
        ∧ (∀ x ∈ v, x ∈ visited ∨ x ∉ stk)
        ∧ BlackClosed g stk v ∧ BlackAcyclic g stk v) := by
  have fold_step : ∀ fuel,
      (∀ stk visited k, k ∈ keysOf g → unvis g visited ≤ fuel →
        BlackClosed g stk visited → BlackAcyclic g stk visited →
        ∀ v, dfsVisit g fuel stk visited k = (none, v) →
          visited ⊆ v ∧ k ∈ v ∧ k ∉ stk
          ∧ (∀ x ∈ v, x ∈ visited ∨ x ∉ stk)
          ∧ BlackClosed g stk v ∧ BlackAcyclic g stk v) →
      ∀ cs stk visited k, (∀ c ∈ cs, c ∈ keysOf g) → unvis g visited ≤ fuel →
        BlackClosed g stk visited → BlackAcyclic g stk visited →
        ∀ v, dfsFold g fuel stk visited k cs = (none, v) →
          visited ⊆ v ∧ (∀ c ∈ cs, c ∈ v ∧ c ∉ stk)
          ∧ (∀ x ∈ v, x ∈ visited ∨ x ∉ stk)
          ∧ BlackClosed g stk v ∧ BlackAcyclic g stk v := by
    intro fuel hvisit cs
    induction cs with
    | nil =>
      intro stk visited k _ _ hbc hba v h
      rw [dfsFold_nil] at h
      cases h
      exact ⟨fun _ hx => hx, fun c hc => absurd hc (List.not_mem_nil c),
        fun x hx => Or.inl hx, hbc, hba⟩
    | cons c cs' ih =>
      intro stk visited k hkeys hfuel hbc hba v h
      rw [dfsFold_cons] at h
      cases hv : dfsVisit g fuel stk visited c with
      | mk r v' =>
        cases r with
        | some q =>
          rw [hv] at h
          cases h
        | none =>
          rw [hv] at h
          obtain ⟨hsub1, hcv, hcs, hx1, hbc1, hba1⟩ :=
            hvisit stk visited c (hkeys c (List.mem_cons_self _ _)) hfuel hbc hba v' hv
          obtain ⟨hsub2, hcs2, hx2, hbc2, hba2⟩ :=
            ih stk v' k (fun c' hc' => hkeys c' (List.mem_cons_of_mem _ hc'))
              (le_trans (unvis_mono g hsub1) hfuel) hbc1 hba1 v h
          refine ⟨fun x hx => hsub2 (hsub1 hx), ?_, ?_, hbc2, hba2⟩
          · intro c'' hc''
            rcases List.mem_cons.mp hc'' with rfl | hc2
            · exact ⟨hsub2 hcv, hcs⟩
            · exact hcs2 c'' hc2
          · intro x hx
            rcases hx2 x hx with hxv' | hxs
            · rcases hx1 x hxv' with hxv | hxs
              · exact Or.inl hxv
              · exact Or.inr hxs
            · exact Or.inr hxs
  have visit_zero : ∀ stk visited k, k ∈ keysOf g → unvis g visited ≤ 0 →
      BlackClosed g stk visited → BlackAcyclic g stk visited →
      ∀ v, dfsVisit g 0 stk visited k = (none, v) →
        visited ⊆ v ∧ k ∈ v ∧ k ∉ stk
        ∧ (∀ x ∈ v, x ∈ visited ∨ x ∉ stk)
        ∧ BlackClosed g stk v ∧ BlackAcyclic g stk v := by
    intro stk visited k hk hfuel hbc hba v h
    rw [dfsVisit_eq] at h
    by_cases hstk : k ∈ stk
    · rw [if_pos hstk] at h
      cases h
    · rw [if_neg hstk] at h
      by_cases hvis : k ∈ visited
      · rw [if_pos hvis] at h
        cases h
        exact ⟨fun _ hx => hx, hvis, hstk, fun x hx => Or.inl hx, hbc, hba⟩
      · exact absurd hfuel (by
          have := unvis_pos g hk hvis
          omega)
  have visit_step : ∀ fuel,
      (∀ cs stk visited k, (∀ c ∈ cs, c ∈ keysOf g) → unvis g visited ≤ fuel →
        BlackClosed g stk visited → BlackAcyclic g stk visited →
        ∀ v, dfsFold g fuel stk visited k cs = (none, v) →
          visited ⊆ v ∧ (∀ c ∈ cs, c ∈ v ∧ c ∉ stk)
          ∧ (∀ x ∈ v, x ∈ visited ∨ x ∉ stk)
          ∧ BlackClosed g stk v ∧ BlackAcyclic g stk v) →
      ∀ stk visited k, k ∈ keysOf g → unvis g visited ≤ fuel + 1 →
        BlackClosed g stk visited → BlackAcyclic g stk visited →
        ∀ v, dfsVisit g (fuel + 1) stk visited k = (none, v) →
          visited ⊆ v ∧ k ∈ v ∧ k ∉ stk
          ∧ (∀ x ∈ v, x ∈ visited ∨ x ∉ stk)
          ∧ BlackClosed g stk v ∧ BlackAcyclic g stk v := by
    intro fuel hfold stk visited k hk hfuel hbc hba v h
    rw [dfsVisit_eq] at h
    by_cases hstk : k ∈ stk
    · rw [if_pos hstk] at h
      cases h
    · rw [if_neg hstk] at h
      by_cases hvis : k ∈ visited
      · rw [if_pos hvis] at h
        cases h
        exact ⟨fun _ hx => hx, hvis, hstk, fun x hx => Or.inl hx, hbc, hba⟩
      · rw [if_neg hvis] at h
        have hbc' : BlackClosed g (k :: stk) (k :: visited) := by
          intro b hb hbs c hc
          have hbk : b ≠ k := fun hbk => hbs (hbk ▸ List.mem_cons_self k stk)
          have hbv : b ∈ visited := by
            rcases List.mem_cons.mp hb with h' | h'
            · exact absurd h' hbk
            · exact h'
          have hbs' : b ∉ stk := fun h' => hbs (List.mem_cons_of_mem _ h')
          obtain ⟨hcv, hcs⟩ := hbc b hbv hbs' c hc
          refine ⟨List.mem_cons_of_mem _ hcv, ?_⟩
          intro hck
          rcases List.mem_cons.mp hck with rfl | h'
          · exact hvis hcv
          · exact hcs h'
        have hba' : BlackAcyclic g (k :: stk) (k :: visited) := by
          intro b hb hbs hcyc
          have hbk : b ≠ k := fun hbk => hbs (hbk ▸ List.mem_cons_self k stk)
          have hbv : b ∈ visited := by
            rcases List.mem_cons.mp hb with h' | h'
            · exact absurd h' hbk
            · exact h'
          have hbs' : b ∉ stk := fun h' => hbs (List.mem_cons_of_mem _ h')
          exact hba b hbv hbs' hcyc
        have hfuel' : unvis g (k :: visited) ≤ fuel := by
          have := unvis_cons_le g hk hvis
          omega
        obtain ⟨hsub, hcs, hx, hbcv, hbav⟩ :=
          hfold (adjOf g k) (k :: stk) (k :: visited) k
            (fun c hc => hclosed k c hc) hfuel' hbc' hba' v h
        have hkv : k ∈ v := hsub (List.mem_cons_self _ _)
        refine ⟨fun x hx' => hsub (List.mem_cons_of_mem _ hx'), hkv, hstk, ?_, ?_, ?_⟩
        · intro x hxv
          rcases hx x hxv with hxk | hxs
          · rcases List.mem_cons.mp hxk with rfl | h'
            · exact Or.inr hstk
            · exact Or.inl h'
          · exact Or.inr (fun h' => hxs (List.mem_cons_of_mem _ h'))
        · intro b hb hbs c hc
          by_cases hbk : b = k
          · subst hbk
            obtain ⟨hcv, hcks⟩ := hcs c hc
            exact ⟨hcv, fun h' => hcks (List.mem_cons_of_mem _ h')⟩
          · have hbs' : b ∉ k :: stk := by
              intro h'
              rcases List.mem_cons.mp h' with h'' | h''
              · exact hbk h''
              · exact hbs h''
            obtain ⟨hcv, hcks⟩ := hbcv b hb hbs' c hc
            exact ⟨hcv, fun h' => hcks (List.mem_cons_of_mem _ h')⟩
        · intro b hb hbs hcyc
          by_cases hbk : b = k
          · subst hbk
            obtain ⟨c, hkc, hck⟩ := (Relation.TransGen.head'_iff).mp hcyc
            obtain ⟨hcv, hcks⟩ := hcs c hkc
            obtain ⟨_, hkks⟩ := reach_black g (b :: stk) v hbcv c b hck hcv hcks
            exact hkks (List.mem_cons_self _ _)
          · have hbs' : b ∉ k :: stk := by
              intro h'
              rcases List.mem_cons.mp h' with h'' | h''
              · exact hbk h''
              · exact hbs h''
            exact hbav b hb hbs' hcyc
  intro fuel
  induction fuel with
  | zero => exact ⟨visit_zero, fold_step 0 visit_zero⟩
  | succ f ihf =>
    have hv := visit_step f (fold_step f ihf.1)
    exact ⟨hv, fold_step (f + 1) hv⟩

theorem verifyLoop_nil (g : List (String × List String)) (visited : List String) :
    verifyLoop g [] visited = (none, visited) := rfl

theorem verifyLoop_cons (g : List (String × List String)) (k : String)
    (ks visited : List String) :
    verifyLoop g (k :: ks) visited =
      if k ∈ visited then verifyLoop g ks visited
      else
        match dfsVisit g g.length [] visited k with
        | (some p, v') => (some p, v')
        | (none, v') => verifyLoop g ks v' := rfl

/-- Any cycle path reported by the `Verify` loop is a genuine
dependency chain whose last key repeats an earlier key. -/
theorem verifyLoop_some (g : List (String × List String)) : ∀ ks visited p v,
    verifyLoop g ks visited = (some p, v) →
    p ≠ [] ∧ List.Chain' (EdgeG g) p ∧ ∃ t, p.getLast? = some t ∧ t ∈ p.dropLast := by
  intro ks
  induction ks with
  | nil =>
    intro visited p v h
    rw [verifyLoop_nil] at h
    simp at h
  | cons k ks' ih =>
    intro visited p v h
    rw [verifyLoop_cons] at h
    by_cases hv : k ∈ visited
    · rw [if_pos hv] at h
      exact ih visited p v h
    · rw [if_neg hv] at h
      cases hd : dfsVisit g g.length [] visited k with
      | mk r v' =>
        cases r with
        | some q =>
          rw [hd] at h
          cases h
          obtain ⟨hhead, hchain, t, hlast, ht⟩ :=
            (dfs_sound g g.length).1 [] visited k _ _ hd
          refine ⟨?_, hchain, t, hlast, ?_⟩
          · intro hnil
            subst hnil
            cases hhead
          · rcases ht with h' | h'
            · cases h'
            · exact h'
        | none =>
          rw [hd] at h
          exact ih v' p v h

/-- When the `Verify` loop reports no cycle, every listed key ends up
black and no cycle passes through a black key. -/
theorem verifyLoop_none (g : List (String × List String)) (hclosed : AdjClosed g) :
    ∀ ks visited, (∀ k ∈ ks, k ∈ keysOf g) →
      BlackClosed g [] visited → BlackAcyclic g [] visited →
      ∀ v, verifyLoop g ks visited = (none, v) →
        (∀ k ∈ ks, k ∈ v) ∧ visited ⊆ v
        ∧ BlackClosed g [] v ∧ BlackAcyclic g [] v := by
  intro ks
  induction ks with
  | nil =>
    intro visited _ hbc hba v h
    rw [verifyLoop_nil] at h
    cases h
    exact ⟨fun k hk => absurd hk (List.not_mem_nil k), fun _ hx => hx, hbc, hba⟩
  | cons k ks' ih =>
    intro visited hkeys hbc hba v h
    rw [verifyLoop_cons] at h
    by_cases hvk : k ∈ visited
    · rw [if_pos hvk] at h
      obtain ⟨hks, hsub, hbc', hba'⟩ :=
        ih visited (fun k' hk' => hkeys k' (List.mem_cons_of_mem _ hk')) hbc hba v h
      refine ⟨?_, hsub, hbc', hba'⟩
      intro k' hk'
      rcases List.mem_cons.mp hk' with rfl | h'
      · exact hsub hvk
      · exact hks k' h'
    · rw [if_neg hvk] at h
      cases hd : dfsVisit g g.length [] visited k with
      | mk r v' =>
        cases r with
        | some q =>
          rw [hd] at h
          simp at h
        | none =>
          rw [hd] at h
          obtain ⟨hsub1, hkv', _, _, hbc1, hba1⟩ :=
            (dfs_complete g hclosed g.length).1 [] visited k
              (hkeys k (List.mem_cons_self _ _)) (unvis_le_length g visited)
              hbc hba v' hd
          obtain ⟨hks, hsub2, hbc2, hba2⟩ :=
            ih v' (fun k' hk' => hkeys k' (List.mem_cons_of_mem _ hk')) hbc1 hba1 v h
          refine ⟨?_, fun x hx => hsub2 (hsub1 hx), hbc2, hba2⟩
          intro k' hk'
          rcases List.mem_cons.mp hk' with rfl | h'
          · exact hsub2 hkv'
          · exact hks k' h'

/-- `Verify`'s graph construction is closed: every dependency key in
the graph is itself one of the graph's keys. -/
theorem keyAdjList_closed (nodes : List GoNode) : AdjClosed (keyAdjList nodes) := by
  intro k c hc
  unfold adjOf at hc
  cases hf : (keyAdjList nodes).find? (fun p => p.1 == k) with
  | none =>
    rw [hf] at hc
    cases hc
  | some p =>
    rw [hf] at hc
    have hmem : p ∈ keyAdjList nodes := List.mem_of_find?_eq_some hf
    obtain ⟨n, hn, hpn⟩ := List.mem_filterMap.mp hmem
    cases hk : n.key with
    | none =>
      rw [hk] at hpn
      cases hpn
    | some kn =>
      rw [hk] at hpn
      cases hpn
      obtain ⟨d, _, hdc⟩ := List.mem_filterMap.mp hc
      cases hgd : nodes.get? d with
      | none =>
        rw [hgd] at hdc
        cases hdc
      | some m =>
        rw [hgd] at hdc
        have hm : m ∈ nodes := List.get?_mem hgd
        have hmk : m.key = some c := by simpa using hdc
        unfold keysOf
        apply List.mem_map.mpr
        refine ⟨(c, m.deps.filterMap
          (fun depIdx => (nodes.get? depIdx).bind (·.key))), ?_, rfl⟩
        apply List.mem_filterMap.mpr
        refine ⟨m, hm, ?_⟩
        rw [hmk]
        rfl

theorem adjOf_ne_nil_mem (g : List (String × List String)) (k : String)
    (h : adjOf g k ≠ []) : k ∈ keysOf g := by
  unfold adjOf at h
  cases hf : g.find? (fun p => p.1 == k) with
  | none =>
    rw [hf] at h
    exact absurd rfl h
  | some p =>
    have hp : p.1 = k := by simpa using List.find?_some hf
    have hpm : p ∈ g := List.mem_of_find?_eq_some hf
    exact hp ▸ List.mem_map.mpr ⟨p, hpm, rfl⟩

theorem cycle_msg_ne_empty (p : List String) :
    "dependency cycle detected: " ++ renderPath p ≠ "" := by
  intro h
  have hl := congrArg String.length h
  rw [String.length_append] at hl
  have h27 : ("dependency cycle detected: ").length = 27 := rfl
  have h0 : ("" : String).length = 0 := rfl
  omega

/-- C6: `Verify` returns the empty string iff the key-only dependency
sub-graph (anonymous nodes skipped) is acyclic; on a cyclic graph the
returned message renders a path of quoted keys that follows dependency
edges and whose last key repeats a key appearing earlier on the path;
and when `panicking` is true, `Verify` panics with that message instead
of returning it. -/
theorem verify_cycle_spec (nodes : List GoNode) :
    GroupVerify nodes false = .ok (goVerifyMsg nodes)
    ∧ (goVerifyMsg nodes = "" ↔ ¬ CyclicG (keyAdjList nodes))
    ∧ (CyclicG (keyAdjList nodes) →
        ∃ p, p ≠ [] ∧ List.Chain' (EdgeG (keyAdjList nodes)) p
          ∧ (∃ t, p.getLast? = some t ∧ t ∈ p.dropLast)
          ∧ goVerifyMsg nodes = "dependency cycle detected: " ++ renderPath p)
    ∧ (∀ m, goVerifyMsg nodes = m → m ≠ "" → GroupVerify nodes true = .error m) := by
  have hsome : ∀ p, goVerifyCycle nodes = some p →
      p ≠ [] ∧ List.Chain' (EdgeG (keyAdjList nodes)) p ∧
        ∃ t, p.getLast? = some t ∧ t ∈ p.dropLast := by
    intro p hp
    unfold goVerifyCycle at hp
    by_cases he : nodes.isEmpty
    · rw [if_pos he] at hp
      cases hp
    · rw [if_neg he] at hp
      cases hres : verifyLoop (keyAdjList nodes) (keysOf (keyAdjList nodes)) [] with
      | mk r v =>
        rw [hres] at hp
        cases hp
        exact verifyLoop_some _ _ _ _ _ hres
  have hnone : goVerifyCycle nodes = none → ¬ CyclicG (keyAdjList nodes) := by
    intro hn hcyc
    obtain ⟨x, hx⟩ := hcyc
    obtain ⟨c, hc, _⟩ := (Relation.TransGen.head'_iff).mp hx
    have hxkeys : x ∈ keysOf (keyAdjList nodes) :=
      adjOf_ne_nil_mem _ x (List.ne_nil_of_mem hc)
    unfold goVerifyCycle at hn
    by_cases he : nodes.isEmpty
    · have hnil : nodes = [] := List.isEmpty_iff.mp he
      subst hnil
      exact absurd hxkeys (List.not_mem_nil x)
    · rw [if_neg he] at hn
      cases hres : verifyLoop (keyAdjList nodes) (keysOf (keyAdjList nodes)) [] with
      | mk r v =>
        rw [hres] at hn
        cases hn
        obtain ⟨hks, _, _, hba⟩ := verifyLoop_none _ (keyAdjList_closed nodes) _ []
          (fun k hk => hk) (fun b hb => absurd hb (List.not_mem_nil b))
          (fun b hb => absurd hb (List.not_mem_nil b)) v hres
        exact hba x (hks x hxkeys) (List.not_mem_nil x) hx
  have hcyc_of_some : ∀ p, goVerifyCycle nodes = some p →
      CyclicG (keyAdjList nodes) := by
    intro p hp
    obtain ⟨hne, hchain, t, hlast, hmem⟩ := hsome p hp
    exact ⟨t, cycle_of_repeat p t hchain hlast hmem⟩
  refine ⟨?_, ⟨?_, ?_⟩, ?_, ?_⟩
  · by_cases h : goVerifyMsg nodes = "" <;> simp [GroupVerify, h]
  · intro hm
    cases hcy : goVerifyCycle nodes with
    | none => exact hnone hcy
    | some p =>
      unfold goVerifyMsg at hm
      rw [hcy] at hm
      exact absurd hm (cycle_msg_ne_empty p)
  · intro hnc
    cases hcy : goVerifyCycle nodes with
    | none =>
      unfold goVerifyMsg
      rw [hcy]
    | some p => exact absurd (hcyc_of_some p hcy) hnc
  · intro hcyc
    cases hcy : goVerifyCycle nodes with
    | none => exact absurd hcyc (hnone hcy)
    | some p =>
      obtain ⟨hne, hchain, t, hlast, hmem⟩ := hsome p hcy
      refine ⟨p, hne, hchain, ⟨t, hlast, hmem⟩, ?_⟩
      unfold goVerifyMsg
      rw [hcy]
  · intro m hm hm'
    simp [GroupVerify, hm, hm']

/-- Witness for C6 on the concrete cycle `a -> b -> a`: the graph is
cyclic and `Verify` returns a non-empty message. -/
theorem verify_cycle_spec_witness :
    CyclicG (keyAdjList exC6Nodes) ∧ goVerifyMsg exC6Nodes ≠ "" := by
  have hab : EdgeG (keyAdjList exC6Nodes) "a" "b" := by
    show "b" ∈ adjOf (keyAdjList exC6Nodes) "a"
    decide
  have hba : EdgeG (keyAdjList exC6Nodes) "b" "a" := by
    show "a" ∈ adjOf (keyAdjList exC6Nodes) "b"
    decide
  have hcyc : CyclicG (keyAdjList exC6Nodes) :=
    ⟨"a", Relation.TransGen.tail (Relation.TransGen.single hab) hba⟩
  refine ⟨hcyc, ?_⟩
  intro h
  exact ((verify_cycle_spec exC6Nodes).2.1.mp h) hcyc
